import Mathlib

/-!
Verification of the whitelist Merkle engine (client-side Merkle tree
construction and proof generation for whitelist minting).

The engine is embedded shallowly:

* JavaScript strings are represented as lists of Unicode code units
  (`Str := List Nat`); all strings handled by the engine are ASCII.
* `Buffer` values (keccak digests, packed addresses) are lists of bytes
  (`List Nat`, each element `< 256`).
* `ethers.keccak256` is embedded as an executable Keccak-256
  (original Keccak padding `0x01`, rate 1088, 24 rounds).
* `ethers.getAddress` is embedded on its hexadecimal path: an optional
  `0x` prefix, 40 hex digits, EIP-55 checksum computation, and rejection
  of mixed-case inputs whose checksum does not match.  (The ICAP base-36
  path of the library is outside the whitelist engine's input format and
  is not modelled.)
* The reactive `useMemo`/`useState` wrapper is modelled by pure
  functions of the current whitelist: `treeData` recomputes the derived
  tree data from scratch, and its `try`/`catch` is modelled with
  `Option` (`treeDataCore`), the `catch` branch producing the empty
  tree data.
-/

namespace ArcMerkle

/-! ## Keccak-256 -/

def mask64 : Nat := 0xFFFFFFFFFFFFFFFF

def rotl64 (x n : Nat) : Nat :=
  ((x <<< n) ||| (x >>> (64 - n))) &&& mask64

/-- Round constants of Keccak-f[1600], in decimal. -/
def keccakRC : List Nat :=
  [1, 32898, 9223372036854808714,
   9223372039002292224, 32907, 2147483649,
   9223372039002292353, 9223372036854808585, 138,
   136, 2147516425, 2147483658,
   2147516555, 9223372036854775947, 9223372036854808713,
   9223372036854808579, 9223372036854808578, 9223372036854775936,
   32778, 9223372039002259466, 9223372039002292353,
   9223372036854808704, 2147483649, 9223372039002292232]

/-- One round of Keccak-f[1600]: theta, rho and pi (the standard
rotation offsets, written out lane by lane so that evaluation is
straight-line arithmetic), chi, and iota with round constant `rc`.  The
state is the 25 lanes in `x + 5*y` order. -/
def keccakRound (s : List Nat) (rc : Nat) : List Nat :=
  match s with
  | a0 :: a1 :: a2 :: a3 :: a4 :: a5 :: a6 :: a7 :: a8 :: a9 ::
    a10 :: a11 :: a12 :: a13 :: a14 :: a15 :: a16 :: a17 :: a18 :: a19 ::
    a20 :: a21 :: a22 :: a23 :: a24 :: _ =>
      let c0 := a0 ^^^ a5 ^^^ a10 ^^^ a15 ^^^ a20
      let c1 := a1 ^^^ a6 ^^^ a11 ^^^ a16 ^^^ a21
      let c2 := a2 ^^^ a7 ^^^ a12 ^^^ a17 ^^^ a22
      let c3 := a3 ^^^ a8 ^^^ a13 ^^^ a18 ^^^ a23
      let c4 := a4 ^^^ a9 ^^^ a14 ^^^ a19 ^^^ a24
      let d0 := c4 ^^^ rotl64 c1 1
      let d1 := c0 ^^^ rotl64 c2 1
      let d2 := c1 ^^^ rotl64 c3 1
      let d3 := c2 ^^^ rotl64 c4 1
      let d4 := c3 ^^^ rotl64 c0 1
      let b0 := a0 ^^^ d0
      let b10 := rotl64 (a1 ^^^ d1) 1
      let b20 := rotl64 (a2 ^^^ d2) 62
      let b5 := rotl64 (a3 ^^^ d3) 28
      let b15 := rotl64 (a4 ^^^ d4) 27
      let b16 := rotl64 (a5 ^^^ d0) 36
      let b1 := rotl64 (a6 ^^^ d1) 44
      let b11 := rotl64 (a7 ^^^ d2) 6
      let b21 := rotl64 (a8 ^^^ d3) 55
      let b6 := rotl64 (a9 ^^^ d4) 20
      let b7 := rotl64 (a10 ^^^ d0) 3
      let b17 := rotl64 (a11 ^^^ d1) 10
      let b2 := rotl64 (a12 ^^^ d2) 43
      let b12 := rotl64 (a13 ^^^ d3) 25
      let b22 := rotl64 (a14 ^^^ d4) 39
      let b23 := rotl64 (a15 ^^^ d0) 41
      let b8 := rotl64 (a16 ^^^ d1) 45
      let b18 := rotl64 (a17 ^^^ d2) 15
      let b3 := rotl64 (a18 ^^^ d3) 21
      let b13 := rotl64 (a19 ^^^ d4) 8
      let b14 := rotl64 (a20 ^^^ d0) 18
      let b24 := rotl64 (a21 ^^^ d1) 2
      let b9 := rotl64 (a22 ^^^ d2) 61
      let b19 := rotl64 (a23 ^^^ d3) 56
      let b4 := rotl64 (a24 ^^^ d4) 14
      [(b0 ^^^ ((mask64 ^^^ b1) &&& b2)) ^^^ rc,
       b1 ^^^ ((mask64 ^^^ b2) &&& b3),
       b2 ^^^ ((mask64 ^^^ b3) &&& b4),
       b3 ^^^ ((mask64 ^^^ b4) &&& b0),
       b4 ^^^ ((mask64 ^^^ b0) &&& b1),
       b5 ^^^ ((mask64 ^^^ b6) &&& b7),
       b6 ^^^ ((mask64 ^^^ b7) &&& b8),
       b7 ^^^ ((mask64 ^^^ b8) &&& b9),
       b8 ^^^ ((mask64 ^^^ b9) &&& b5),
       b9 ^^^ ((mask64 ^^^ b5) &&& b6),
       b10 ^^^ ((mask64 ^^^ b11) &&& b12),
       b11 ^^^ ((mask64 ^^^ b12) &&& b13),
       b12 ^^^ ((mask64 ^^^ b13) &&& b14),
       b13 ^^^ ((mask64 ^^^ b14) &&& b10),
       b14 ^^^ ((mask64 ^^^ b10) &&& b11),
       b15 ^^^ ((mask64 ^^^ b16) &&& b17),
       b16 ^^^ ((mask64 ^^^ b17) &&& b18),
       b17 ^^^ ((mask64 ^^^ b18) &&& b19),
       b18 ^^^ ((mask64 ^^^ b19) &&& b15),
       b19 ^^^ ((mask64 ^^^ b15) &&& b16),
       b20 ^^^ ((mask64 ^^^ b21) &&& b22),
       b21 ^^^ ((mask64 ^^^ b22) &&& b23),
       b22 ^^^ ((mask64 ^^^ b23) &&& b24),
       b23 ^^^ ((mask64 ^^^ b24) &&& b20),
       b24 ^^^ ((mask64 ^^^ b20) &&& b21)]
  | _ => s

def keccakP (s : List Nat) : List Nat :=
  keccakRC.foldl keccakRound s

/-- Original Keccak pad10*1 with domain byte `0x01` (as used by
`ethers.keccak256`), for a message of length `len`. -/
def padKeccak (len : Nat) : List Nat :=
  let r := 136 - len % 136
  if r = 1 then [0x81] else 0x01 :: (List.replicate (r - 2) 0 ++ [0x80])

/-- A 64-bit lane from up to eight little-endian bytes. -/
def bytesToLane (bs : List Nat) : Nat :=
  bs.foldr (fun b acc => b + 256 * acc) 0

def blockLanes (block : List Nat) : List Nat :=
  (List.range 17).map (fun j => bytesToLane ((block.drop (8 * j)).take 8))

/-- Absorb the (already padded) message into the sponge.  The fuel is an
upper bound on the number of 136-byte blocks; each step consumes a
nonempty prefix, so `fuel = message length` always suffices. -/
def absorbBlocks : Nat → List Nat → List Nat → List Nat
  | 0, s, _ => s
  | fuel + 1, s, m =>
      if m = [] then s
      else
        absorbBlocks fuel
          (keccakP (List.zipWith (fun a b => a ^^^ b) s (blockLanes (m.take 136) ++ List.replicate 8 0)))
          (m.drop 136)

/-- Keccak-256 of a byte sequence, as 32 bytes. -/
def keccak256 (m : List Nat) : List Nat :=
  let padded := m ++ padKeccak m.length
  let s := absorbBlocks padded.length (List.replicate 25 0) padded
  ((s.take 4).map (fun v => (List.range 8).map (fun k => (v >>> (8 * k)) &&& 255))).flatten

/-! ## JavaScript strings and address normalization

JavaScript strings are sequences of UTF-16 code units; every string the
engine manipulates is ASCII, so a list of natural-number code units is a
faithful representation. -/

abbrev Str : Type := List Nat

/-- Code units of a Lean string literal, used to write concrete
JavaScript strings. -/
def jstr (s : String) : Str := s.data.map Char.toNat

/-- `String.prototype.toLowerCase` on the ASCII range. -/
def toLowerN (n : Nat) : Nat := if 65 ≤ n ∧ n ≤ 90 then n + 32 else n

/-- `String.prototype.toUpperCase` on the ASCII range. -/
def toUpperN (n : Nat) : Nat := if 97 ≤ n ∧ n ≤ 122 then n - 32 else n

def lowerStr (s : Str) : Str := s.map toLowerN

/-- The `WhiteSpace`/`LineTerminator` code points stripped by
`String.prototype.trim` (the ASCII ones plus NBSP, BOM and the Unicode
line separators; the engine's inputs never contain the remaining exotic
Unicode space characters). -/
def isWsN (n : Nat) : Bool :=
  n = 9 || n = 10 || n = 11 || n = 12 || n = 13 || n = 32 || n = 160 ||
  n = 0x2028 || n = 0x2029 || n = 0xFEFF

/-- `String.prototype.trim`. -/
def trim (s : Str) : Str :=
  ((List.dropWhile (fun c => isWsN c) s).reverse.dropWhile (fun c => isWsN c)).reverse

/-- `text.split(/[\n,]/)`: split on newline and comma separators; an
empty string yields one empty piece. -/
def splitSeps : Str → List Str
  | [] => [[]]
  | c :: rest =>
      if c = 10 ∨ c = 44 then [] :: splitSeps rest
      else
        match splitSeps rest with
        | [] => [[c]]
        | p :: ps => (c :: p) :: ps

def isHexN (n : Nat) : Bool :=
  (48 ≤ n && n ≤ 57) || (97 ≤ n && n ≤ 102) || (65 ≤ n && n ≤ 70)

def isLowerHexN (n : Nat) : Bool :=
  (48 ≤ n && n ≤ 57) || (97 ≤ n && n ≤ 102)

/-- Value of a hexadecimal digit code unit. -/
def hexValN (n : Nat) : Nat :=
  if n ≤ 57 then n - 48 else if n ≤ 70 then n - 55 else n - 87

/-- Lowercase hexadecimal digit for a value `< 16`. -/
def hexDigN (d : Nat) : Nat := if d < 10 then 48 + d else 87 + d

/-- `Buffer.from(hexChars, 'hex')`: decode hexadecimal digit pairs into
bytes, stopping at the first invalid pair or dangling digit. -/
def hexPairsToBytes : Str → List Nat
  | a :: b :: rest =>
      if isHexN a && isHexN b then (hexValN a * 16 + hexValN b) :: hexPairsToBytes rest
      else []
  | _ => []

/-- `buf.toString('hex')`: two lowercase hexadecimal digits per byte. -/
def bytesHex (bs : List Nat) : Str :=
  (bs.map (fun b => [hexDigN (b / 16), hexDigN (b % 16)])).flatten

/-- A `'0x' + buf.toString('hex')` string (code 48 is `0`, 120 is `x`). -/
def hex0x (bs : List Nat) : Str := 48 :: 120 :: bytesHex bs

/-- `ethers.ZeroHash`: the `0x`-prefixed hex string of 32 zero bytes. -/
def ZeroHash : Str := hex0x (List.replicate 32 0)

/-- EIP-55 checksum: uppercase the hex digits of the lowercase address
whose corresponding nibble of `keccak256(asciiBytes(lowercaseHex40))` is
at least 8 (`getChecksumAddress` in ethers). -/
def checksumChars (lower : Str) : Str :=
  let hashed := keccak256 lower
  (List.range lower.length).map (fun i =>
    let nib := if i % 2 = 0 then hashed.getD (i / 2) 0 / 16 else hashed.getD (i / 2) 0 % 16
    if 8 ≤ nib then toUpperN (lower.getD i 0) else lower.getD i 0)

/-- The regex test `([A-F].*[a-f])|([a-f].*[A-F])`: the string contains
both an uppercase and a lowercase hexadecimal letter. -/
def mixedUL (s : Str) : Bool :=
  (s.any (fun n => 65 ≤ n && n ≤ 70)) && (s.any (fun n => 97 ≤ n && n ≤ 102))

/-- The 40 hexadecimal digits of an address string matching
`^(0x)?[0-9a-fA-F]{40}$`, if it matches. -/
def hex40? (s : Str) : Option Str :=
  if s.length = 42 ∧ s.getD 0 0 = 48 ∧ s.getD 1 0 = 120 ∧ (s.drop 2).all (fun c => isHexN c) then
    some (s.drop 2)
  else if s.length = 40 ∧ s.all (fun c => isHexN c) then some s
  else none

/-- `ethers.getAddress` on its hexadecimal path: accept 40 hex digits
with an optional `0x` prefix, produce the EIP-55 checksummed form, and
reject a mixed-case input whose checksum does not match (`none` models
the thrown `bad address checksum` / `invalid address` errors). -/
def getAddress (s : Str) : Option Str :=
  match hex40? s with
  | none => none
  | some h40 =>
      let lower := lowerStr h40
      let result := 48 :: 120 :: checksumChars lower
      let full := 48 :: 120 :: h40
      if mixedUL full ∧ result ≠ full then none else some result

/-- `hashAddress` / the leaf computation: normalize, then
`keccak256(abi.encodePacked(address))`, i.e. keccak over the raw
20 address bytes. -/
def hashAddress (s : Str) : Option (List Nat) :=
  (getAddress s).map (fun ca => keccak256 (hexPairsToBytes (ca.drop 2)))

/-! ## Sorted-pair hashing and tree construction -/

/-- `Buffer.compare`: lexicographic byte comparison, shorter buffer
first on an equal prefix. -/
def compareBytes : List Nat → List Nat → Ordering
  | [], [] => .eq
  | [], _ :: _ => .lt
  | _ :: _, [] => .gt
  | a :: as, b :: bs =>
      if a < b then .lt else if b < a then .gt else compareBytes as bs

/-- `sortPair`: order two sibling hashes by raw byte comparison. -/
def sortPair (a b : List Nat) : List Nat × List Nat :=
  if compareBytes a b = .lt then (a, b) else (b, a)

/-- `hashPair`: keccak256 of the sorted concatenation of two nodes. -/
def hashPair (a b : List Nat) : List Nat :=
  let p := sortPair a b
  keccak256 (p.1 ++ p.2)

/-- One `while` iteration of `buildTree`: hash adjacent pairs, promote
an unpaired trailing node unchanged. -/
def nextLayer : List (List Nat) → List (List Nat)
  | [] => []
  | [a] => [a]
  | a :: b :: rest => hashPair a b :: nextLayer rest

/-- The layer sequence of `buildTree`, with explicit fuel bounding the
number of `while` iterations (each iteration strictly shrinks a layer of
length at least two, so `fuel = length of the leaf layer` suffices;
`buildLayersFuel_eq` below shows the fueled form satisfies the loop's
recurrence). -/
def buildLayersFuel : Nat → List (List Nat) → List (List (List Nat))
  | 0, cur => [cur]
  | fuel + 1, cur =>
      if cur.length ≤ 1 then [cur]
      else cur :: buildLayersFuel fuel (nextLayer cur)

def buildLayers (cur : List (List Nat)) : List (List (List Nat)) :=
  buildLayersFuel cur.length cur

/-- `buildTree`: layers bottom to top; no layers for no leaves. -/
def buildTree (leaves : List (List Nat)) : List (List (List Nat)) :=
  if leaves = [] then [] else buildLayers leaves

/-- The sibling nodes collected by the `getProof` walk (the proof before
hex encoding). -/
def getProofNodes : List (List (List Nat)) → Nat → List (List Nat)
  | [], _ => []
  | [_], _ => []
  | layer :: next :: rest, idx =>
      let sib := if idx % 2 = 1 then idx - 1 else idx + 1
      (if sib < layer.length then [layer.getD sib []] else []) ++
        getProofNodes (next :: rest) (idx / 2)

/-- `getProof`: walk every layer below the root; at each level emit the
`'0x' + hex` string of the sibling when it exists, then halve the
index. -/
def getProof : List (List (List Nat)) → Nat → List Str
  | [], _ => []
  | [_], _ => []
  | layer :: next :: rest, idx =>
      let sib := if idx % 2 = 1 then idx - 1 else idx + 1
      (if sib < layer.length then [hex0x (layer.getD sib [])] else []) ++
        getProof (next :: rest) (idx / 2)

/-- `layers[layers.length - 1][0]`. -/
def rootNode (layers : List (List (List Nat))) : List Nat :=
  ((layers.getLast?).getD []).getD 0 []

/-! ## The whitelist engine -/

/-- The object computed by the `treeData` memo. -/
structure TreeData where
  leaves : List (List Nat)
  layers : List (List (List Nat))
  root : Str
  addressToIndex : List (Str × Nat)
  addresses : Option (List Str)
deriving DecidableEq

/-- The tree data of the empty and of the failed build (the `addresses`
field is absent in the source object, modelled as `none`). -/
def emptyTreeData : TreeData :=
  ⟨[], [], ZeroHash, [], none⟩

/-- `[...new Set(xs)]`: first-occurrence-preserving deduplication
(insertion order of a JavaScript `Set`). -/
def dedup (xs : List Str) : List Str :=
  xs.foldl (fun acc x => if x ∈ acc then acc else acc ++ [x]) []

/-- The entries of `new Map(normalized.map((addr, i) => [addr.toLowerCase(), i]))`. -/
def mkIndexAux : Nat → List Str → List (Str × Nat)
  | _, [] => []
  | i, a :: rest => (lowerStr a, i) :: mkIndexAux (i + 1) rest

def mkIndex (ns : List Str) : List (Str × Nat) := mkIndexAux 0 ns

/-- `Map.prototype.get`: the value of the last insertion of the key. -/
def mapGet (m : List (Str × Nat)) (k : Str) : Option Nat :=
  m.foldl (fun acc p => if p.1 = k then some p.2 else acc) none

/-- The `try` block of the `treeData` memo: normalize and deduplicate
the whitelist, hash the leaves, build the layers, compute the root and
the address index.  `none` models a thrown error. -/
def treeDataCore (whitelist : List Str) : Option TreeData :=
  (whitelist.mapM (fun addr => getAddress (trim addr))).bind (fun cas =>
    let normalizedAddresses := dedup cas
    (normalizedAddresses.mapM hashAddress).map (fun leaves =>
      let layers := buildTree leaves
      let root := if layers = [] then ZeroHash else hex0x (rootNode layers)
      ⟨leaves, layers, root, mkIndex normalizedAddresses, some normalizedAddresses⟩))

/-- The `treeData` memo: empty input gives the empty data; a thrown
build error is caught and also gives the empty data. -/
def treeData (whitelist : List Str) : TreeData :=
  if whitelist = [] then emptyTreeData
  else (treeDataCore whitelist).getD emptyTreeData

/-- A rebuild of the memoized tree data: the recomputation is from
scratch and does not consult the previously built value. -/
def rebuildStep (_previous : TreeData) (whitelist : List Str) : TreeData :=
  treeData whitelist

/-- `loadWhitelist`: keep exactly the entries whose trimmed form parses
as an address; returns the success flag and the new whitelist state. -/
def loadWhitelist (addresses : List Str) : Bool × List Str :=
  (true, addresses.filter (fun addr => (getAddress (trim addr)).isSome))

/-- `loadWhitelistFromText`: split on newlines and commas, trim, drop
empty pieces, then load. -/
def loadWhitelistFromText (text : Str) : Bool × List Str :=
  loadWhitelist (((splitSeps text).map trim).filter (fun addr => addr ≠ []))

/-- `isWhitelisted`: normalize and look up the lowercase key; a
normalization error is caught and yields `false`. -/
def isWhitelisted (whitelist : List Str) (address : Str) : Bool :=
  match getAddress address with
  | none => false
  | some ca => (mapGet (treeData whitelist).addressToIndex (lowerStr ca)).isSome

/-- `getProofForAddress`: empty proof for an unknown or unparsable
address, otherwise the `getProof` walk from the leaf index. -/
def getProofForAddress (whitelist : List Str) (address : Str) : List Str :=
  match getAddress address with
  | none => []
  | some ca =>
      match mapGet (treeData whitelist).addressToIndex (lowerStr ca) with
      | none => []
      | some index => getProof (treeData whitelist).layers index

/-- `verifyProof`: fold the proof elements onto the leaf with the
sorted-pair hash and compare the hex form with the stored root; a
normalization error yields `false`. -/
def verifyProof (whitelist : List Str) (proof : List Str) (address : Str) : Bool :=
  match hashAddress address with
  | none => false
  | some h0 =>
      hex0x (proof.foldl (fun hash p => hashPair hash (hexPairsToBytes (p.drop 2))) h0) ==
        (treeData whitelist).root

/-- The record returned by `exportAsJSON`. -/
structure ExportData where
  addresses : List Str
  root : Str
  count : Nat
deriving DecidableEq

def exportAsJSON (whitelist : List Str) : ExportData :=
  ⟨((treeData whitelist).addresses).getD [],
   (treeData whitelist).root,
   (((treeData whitelist).addresses).getD []).length⟩

/-- The text form of an exported address list: addresses joined by
newline characters (`addresses.join('\n')`). -/
def joinNL : List Str → Str
  | [] => []
  | [x] => x
  | x :: y :: rest => x ++ 10 :: joinNL (y :: rest)

/-- Number of leaves of the built tree. -/
def leafCount (whitelist : List Str) : Nat := (treeData whitelist).leaves.length

/-- The standalone `generateMerkleRoot` utility. -/
def generateMerkleRoot (addresses : List Str) : Str :=
  if addresses = [] then ZeroHash
  else
    ((addresses.mapM (fun addr => getAddress (trim addr))).bind (fun cas =>
      let normalized := dedup cas
      (normalized.mapM hashAddress).map (fun leaves =>
        let layers := buildTree leaves
        if layers = [] then ZeroHash else hex0x (rootNode layers)))).getD ZeroHash

/-! ## Bytes, hex digits, and the hex round trip -/

/-- Well-formed byte sequences. -/
def wfBytes (bs : List Nat) : Prop := ∀ b ∈ bs, b < 256

theorem wfBytes_keccak256 (m : List Nat) : wfBytes (keccak256 m) := by
  intro b hb
  simp only [keccak256, List.mem_flatten, List.mem_map] at hb
  obtain ⟨l, ⟨v, _, rfl⟩, hbl⟩ := hb
  simp only [List.mem_map] at hbl
  obtain ⟨k, _, rfl⟩ := hbl
  have : (v >>> (8 * k)) &&& 255 ≤ 255 := Nat.and_le_right
  omega

theorem hexDigN_isHex {d : Nat} (h : d < 16) : isHexN (hexDigN d) = true := by
  unfold hexDigN isHexN
  split <;> simp <;> omega

theorem hexValN_hexDigN {d : Nat} (h : d < 16) : hexValN (hexDigN d) = d := by
  unfold hexDigN hexValN
  split <;> (repeat' split) <;> omega

theorem hexPairsToBytes_bytesHex {bs : List Nat} (wf : wfBytes bs) :
    hexPairsToBytes (bytesHex bs) = bs := by
  induction bs with
  | nil => rfl
  | cons b t ih =>
      have hb : b < 256 := wf b (List.mem_cons_self ..)
      have h1 : b / 16 < 16 := by omega
      have h2 : b % 16 < 16 := by omega
      have hwt : wfBytes t := fun x hx => wf x (List.mem_cons_of_mem _ hx)
      have hbh : bytesHex (b :: t) = hexDigN (b / 16) :: hexDigN (b % 16) :: bytesHex t := by
        simp [bytesHex]
      rw [hbh]
      simp only [hexPairsToBytes, hexDigN_isHex h1, hexDigN_isHex h2, Bool.and_self, if_true]
      rw [hexValN_hexDigN h1, hexValN_hexDigN h2, ih hwt]
      simp only [List.cons.injEq, and_true]
      omega

theorem hexPairsToBytes_hex0x {bs : List Nat} (wf : wfBytes bs) :
    hexPairsToBytes ((hex0x bs).drop 2) = bs := by
  simpa [hex0x] using hexPairsToBytes_bytesHex wf

/-! ## Sorted-pair hashing is symmetric -/

theorem compareBytes_eq_of_eq : ∀ {a b : List Nat}, compareBytes a b = .eq → a = b := by
  intro a
  induction a with
  | nil => intro b h; cases b <;> simp_all [compareBytes]
  | cons x xs ih =>
      intro b h
      cases b with
      | nil => simp [compareBytes] at h
      | cons y ys =>
          unfold compareBytes at h
          split at h
          · exact absurd h (by simp)
          · split at h
            · exact absurd h (by simp)
            · have : x = y := by omega
              rw [this, ih h]

theorem compareBytes_swap : ∀ (a b : List Nat), compareBytes b a = (compareBytes a b).swap := by
  intro a
  induction a with
  | nil => intro b; cases b <;> rfl
  | cons x xs ih =>
      intro b
      cases b with
      | nil => rfl
      | cons y ys =>
          unfold compareBytes
          rcases Nat.lt_trichotomy x y with h | h | h
          · rw [if_neg (by omega), if_pos h, if_pos h]
            rfl
          · rw [if_neg (by omega), if_neg (by omega), if_neg (by omega), if_neg (by omega)]
            exact ih ys
          · rw [if_pos h, if_neg (by omega), if_pos h]
            rfl

theorem hashPair_comm (a b : List Nat) : hashPair a b = hashPair b a := by
  unfold hashPair sortPair
  rcases h : compareBytes a b with _ | _ | _
  · have hba : compareBytes b a = .gt := by rw [compareBytes_swap, h]; rfl
    simp [hba]
  · have hab : a = b := compareBytes_eq_of_eq h
    subst hab
    simp
  · have hba : compareBytes b a = .lt := by rw [compareBytes_swap, h]; rfl
    simp [hba]

theorem wfBytes_hashPair (a b : List Nat) : wfBytes (hashPair a b) :=
  wfBytes_keccak256 _

/-! ## Layer lemmas -/

theorem nextLayer_length : ∀ l : List (List Nat), (nextLayer l).length = (l.length + 1) / 2 := by
  intro l
  induction l using nextLayer.induct with
  | case1 => rfl
  | case2 a => simp [nextLayer]
  | case3 a b rest ih => simp [nextLayer, ih]; omega

theorem nextLayer_getD_pair :
    ∀ (l : List (List Nat)) (j : Nat), 2 * j + 1 < l.length →
      (nextLayer l).getD j [] = hashPair (l.getD (2 * j) []) (l.getD (2 * j + 1) []) := by
  intro l
  induction l using nextLayer.induct with
  | case1 => intro j h; simp at h
  | case2 a =>
      intro j h
      simp only [List.length_cons, List.length_nil] at h
      omega
  | case3 a b rest ih =>
      intro j h
      match j with
      | 0 => simp [nextLayer]
      | j + 1 =>
          have h1 : 2 * (j + 1) = 2 * j + 1 + 1 := by omega
          rw [h1]
          simp only [nextLayer, List.getD_cons_succ]
          exact ih j (by simp only [List.length_cons] at h; omega)

theorem nextLayer_getD_promote :
    ∀ (l : List (List Nat)) (j : Nat), 2 * j < l.length → l.length ≤ 2 * j + 1 →
      (nextLayer l).getD j [] = l.getD (2 * j) [] := by
  intro l
  induction l using nextLayer.induct with
  | case1 => intro j h1 h2; simp at h1
  | case2 a =>
      intro j h1 h2
      simp only [List.length_cons, List.length_nil] at h1
      have : j = 0 := by omega
      subst this
      simp [nextLayer]
  | case3 a b rest ih =>
      intro j h1 h2
      simp only [List.length_cons] at h1 h2
      match j with
      | 0 => omega
      | j + 1 =>
          have hj : 2 * (j + 1) = 2 * j + 1 + 1 := by omega
          rw [hj]
          simp only [nextLayer, List.getD_cons_succ]
          exact ih j (by omega) (by omega)

theorem nextLayer_wf {l : List (List Nat)} (h : ∀ x ∈ l, wfBytes x) :
    ∀ x ∈ nextLayer l, wfBytes x := by
  induction l using nextLayer.induct with
  | case1 => simp [nextLayer]
  | case2 a => simpa [nextLayer] using h
  | case3 a b rest ih =>
      intro x hx
      simp only [nextLayer, List.mem_cons] at hx
      rcases hx with rfl | hx
      · exact wfBytes_hashPair a b
      · exact ih (fun y hy => h y (by simp [hy])) x hx

theorem buildLayersFuel_irrel :
    ∀ (n : Nat) (cur : List (List Nat)), cur.length = n →
      ∀ f g, cur.length ≤ f → cur.length ≤ g → buildLayersFuel f cur = buildLayersFuel g cur := by
  intro n
  induction n using Nat.strong_induction_on with
  | _ n ih =>
      intro cur hn f g hf hg
      by_cases hle : cur.length ≤ 1
      · match f, g with
        | 0, 0 => rfl
        | 0, g + 1 => simp [buildLayersFuel, hle]
        | f + 1, 0 => simp [buildLayersFuel, hle]
        | f + 1, g + 1 => simp [buildLayersFuel, hle]
      · match f, g with
        | 0, _ => omega
        | _, 0 => omega
        | f + 1, g + 1 =>
            simp only [buildLayersFuel, if_neg hle]
            have hlen : (nextLayer cur).length = (cur.length + 1) / 2 := nextLayer_length cur
            have hlt : (nextLayer cur).length < n := by omega
            rw [ih _ hlt (nextLayer cur) rfl f g (by omega) (by omega)]

theorem buildLayers_eq (cur : List (List Nat)) :
    buildLayers cur = if cur.length ≤ 1 then [cur] else cur :: buildLayers (nextLayer cur) := by
  unfold buildLayers
  by_cases hle : cur.length ≤ 1
  · rw [if_pos hle]
    match h : cur.length with
    | 0 => rfl
    | 1 => simp [buildLayersFuel, h]
    | n + 2 => omega
  · rw [if_neg hle]
    match h : cur.length with
    | 0 => omega
    | 1 => omega
    | m + 2 =>
        simp only [buildLayersFuel, if_neg hle]
        have hlen : (nextLayer cur).length = (cur.length + 1) / 2 := nextLayer_length cur
        exact congrArg _ (buildLayersFuel_irrel (nextLayer cur).length (nextLayer cur) rfl
          (m + 1) (nextLayer cur).length (by omega) (by omega))

theorem buildLayers_ne_nil (cur : List (List Nat)) : buildLayers cur ≠ [] := by
  rw [buildLayers_eq]
  split <;> simp

theorem buildLayers_wf :
    ∀ (n : Nat) (cur : List (List Nat)), cur.length = n → (∀ x ∈ cur, wfBytes x) →
      ∀ l ∈ buildLayers cur, ∀ x ∈ l, wfBytes x := by
  intro n
  induction n using Nat.strong_induction_on with
  | _ n ih =>
      intro cur hn hcur l hl
      rw [buildLayers_eq] at hl
      split at hl
      · simp at hl
        subst hl
        exact hcur
      · rcases List.mem_cons.mp hl with rfl | hl
        · exact hcur
        · have hlen : (nextLayer cur).length = (cur.length + 1) / 2 := nextLayer_length cur
          exact ih _ (by omega) (nextLayer cur) rfl (nextLayer_wf hcur) l hl

/-! ## The proof walk recomputes the root -/

theorem rootNode_cons_cons (l1 l2 : List (List Nat)) (ls : List (List (List Nat))) :
    rootNode (l1 :: l2 :: ls) = rootNode (l2 :: ls) := by
  simp [rootNode]

theorem getProofNodes_cons (layer next : List (List Nat)) (rest : List (List (List Nat)))
    (idx : Nat) :
    getProofNodes (layer :: next :: rest) idx =
      (if (if idx % 2 = 1 then idx - 1 else idx + 1) < layer.length
        then [layer.getD (if idx % 2 = 1 then idx - 1 else idx + 1) []] else []) ++
        getProofNodes (next :: rest) (idx / 2) := rfl

theorem getProof_cons (layer next : List (List Nat)) (rest : List (List (List Nat)))
    (idx : Nat) :
    getProof (layer :: next :: rest) idx =
      (if (if idx % 2 = 1 then idx - 1 else idx + 1) < layer.length
        then [hex0x (layer.getD (if idx % 2 = 1 then idx - 1 else idx + 1) [])] else []) ++
        getProof (next :: rest) (idx / 2) := rfl

/-- Folding the collected sibling nodes onto the leaf at `idx` with the
sorted-pair hash yields the top node of the built layer sequence. -/
theorem foldl_getProofNodes :
    ∀ (n : Nat) (cur : List (List Nat)), cur.length = n → ∀ idx, idx < cur.length →
      (getProofNodes (buildLayers cur) idx).foldl hashPair (cur.getD idx []) =
        rootNode (buildLayers cur) := by
  intro n
  induction n using Nat.strong_induction_on with
  | _ n ih =>
      intro cur hn idx hidx
      rw [buildLayers_eq cur]
      by_cases hle : cur.length ≤ 1
      · rw [if_pos hle]
        have hidx0 : idx = 0 := by omega
        subst hidx0
        simp [getProofNodes, rootNode]
      · rw [if_neg hle]
        obtain ⟨l2, ls, hL⟩ : ∃ l2 ls, buildLayers (nextLayer cur) = l2 :: ls := by
          rcases h : buildLayers (nextLayer cur) with _ | ⟨l2, ls⟩
          · exact absurd h (buildLayers_ne_nil _)
          · exact ⟨l2, ls, rfl⟩
        rw [hL]
        have hnl : (nextLayer cur).length = (cur.length + 1) / 2 := nextLayer_length cur
        have hrec : ∀ start, start = (nextLayer cur).getD (idx / 2) [] →
            (getProofNodes (l2 :: ls) (idx / 2)).foldl hashPair start = rootNode (l2 :: ls) := by
          intro start hstart
          subst hstart
          rw [← hL]
          exact ih _ (by omega) (nextLayer cur) rfl (idx / 2) (by omega)
        rw [rootNode_cons_cons, getProofNodes_cons, List.foldl_append]
        rcases Nat.even_or_odd idx with he | ho
        · have hmod : idx % 2 = 0 := Nat.even_iff.mp he
          have hsv : (if idx % 2 = 1 then idx - 1 else idx + 1) = idx + 1 := by
            rw [if_neg (by omega)]
          rw [hsv]
          by_cases hsib : idx + 1 < cur.length
          · rw [if_pos hsib]
            simp only [List.foldl_cons, List.foldl_nil]
            apply hrec
            rw [nextLayer_getD_pair cur (idx / 2) (by omega)]
            have h2 : 2 * (idx / 2) = idx := by omega
            rw [h2]
          · rw [if_neg hsib]
            simp only [List.foldl_nil]
            apply hrec
            rw [nextLayer_getD_promote cur (idx / 2) (by omega) (by omega)]
            congr 1
            omega
        · have hmod : idx % 2 = 1 := Nat.odd_iff.mp ho
          have hsv : (if idx % 2 = 1 then idx - 1 else idx + 1) = idx - 1 := by
            rw [if_pos hmod]
          rw [hsv]
          have hsib : idx - 1 < cur.length := by omega
          rw [if_pos hsib]
          simp only [List.foldl_cons, List.foldl_nil]
          apply hrec
          rw [hashPair_comm, nextLayer_getD_pair cur (idx / 2) (by omega)]
          have h2 : 2 * (idx / 2) + 1 = idx := by omega
          have h1 : 2 * (idx / 2) = idx - 1 := by omega
          rw [h2, h1]

/-- The `getProof` strings are exactly the hex encodings of the
collected sibling nodes. -/
theorem getProof_eq_map_hex :
    ∀ (layers : List (List (List Nat))) (idx : Nat),
      getProof layers idx = (getProofNodes layers idx).map hex0x := by
  intro layers idx
  induction layers, idx using getProofNodes.induct with
  | case1 _ => rfl
  | case2 _ _ => rfl
  | case3 layer next rest idx ihgen =>
      rw [getProofNodes_cons, getProof_cons, List.map_append, ihgen]
      congr 1
      rw [apply_ite (List.map hex0x)]
      simp

theorem getProofNodes_wf :
    ∀ (layers : List (List (List Nat))) (idx : Nat),
      (∀ l ∈ layers, ∀ x ∈ l, wfBytes x) →
      ∀ nd ∈ getProofNodes layers idx, wfBytes nd := by
  intro layers idx
  induction layers, idx using getProofNodes.induct with
  | case1 _ => intro _; simp [getProofNodes]
  | case2 _ _ => intro _; simp [getProofNodes]
  | case3 layer next rest idx ihgen =>
      intro hw nd hnd
      rw [getProofNodes_cons, List.mem_append] at hnd
      rcases hnd with hnd | hnd
      · by_cases hc : (if idx % 2 = 1 then idx - 1 else idx + 1) < layer.length
        · rw [if_pos hc, List.mem_singleton] at hnd
          subst hnd
          have hmem : layer.getD (if idx % 2 = 1 then idx - 1 else idx + 1) [] ∈ layer := by
            rw [List.getD_eq_getElem _ _ hc]
            exact List.getElem_mem _
          exact hw layer (List.mem_cons_self ..) _ hmem
        · rw [if_neg hc] at hnd
          simp at hnd
      · exact ihgen (fun l hl => hw l (List.mem_cons_of_mem _ hl)) nd hnd

/-- Folding the hex-encoded proof with the parse step of `verifyProof`
equals folding the raw nodes, for well-formed nodes. -/
theorem foldl_verify_map (nodes : List (List Nat)) (h0 : List Nat)
    (hwf : ∀ nd ∈ nodes, wfBytes nd) :
    (nodes.map hex0x).foldl (fun hash p => hashPair hash (hexPairsToBytes (p.drop 2))) h0 =
      nodes.foldl hashPair h0 := by
  induction nodes generalizing h0 with
  | nil => rfl
  | cons nd rest ih =>
      simp only [List.map_cons, List.foldl_cons]
      rw [hexPairsToBytes_hex0x (hwf nd (List.mem_cons_self ..))]
      exact ih _ (fun x hx => hwf x (List.mem_cons_of_mem _ hx))

/-! ## Character-level lemmas -/

theorem toLowerN_hex {n : Nat} (h : isHexN n = true) : isLowerHexN (toLowerN n) = true := by
  simp only [isHexN, Bool.or_eq_true, Bool.and_eq_true, decide_eq_true_eq] at h
  simp only [toLowerN, isLowerHexN, Bool.or_eq_true, Bool.and_eq_true, decide_eq_true_eq]
  split <;> omega

theorem toLowerN_fix {n : Nat} (h : isLowerHexN n = true) : toLowerN n = n := by
  simp only [isLowerHexN, Bool.or_eq_true, Bool.and_eq_true, decide_eq_true_eq] at h
  simp only [toLowerN]
  split <;> omega

theorem toLowerN_toUpperN {n : Nat} (h : isLowerHexN n = true) : toLowerN (toUpperN n) = n := by
  simp only [isLowerHexN, Bool.or_eq_true, Bool.and_eq_true, decide_eq_true_eq] at h
  simp only [toLowerN, toUpperN]
  split <;> split <;> omega

theorem toUpperN_hex {n : Nat} (h : isLowerHexN n = true) : isHexN (toUpperN n) = true := by
  simp only [isLowerHexN, Bool.or_eq_true, Bool.and_eq_true, decide_eq_true_eq] at h
  simp only [toUpperN, isHexN, Bool.or_eq_true, Bool.and_eq_true, decide_eq_true_eq]
  split <;> omega

theorem isLowerHexN_isHexN {n : Nat} (h : isLowerHexN n = true) : isHexN n = true := by
  simp only [isLowerHexN, Bool.or_eq_true, Bool.and_eq_true, decide_eq_true_eq] at h
  simp only [isHexN, Bool.or_eq_true, Bool.and_eq_true, decide_eq_true_eq]
  omega

theorem isHexN_not_ws {n : Nat} (h : isHexN n = true) : isWsN n = false := by
  simp only [isHexN, Bool.or_eq_true, Bool.and_eq_true, decide_eq_true_eq] at h
  simp only [isWsN, Bool.or_eq_false_iff, decide_eq_false_iff_not]
  omega

theorem isHexN_not_sep {n : Nat} (h : isHexN n = true) : n ≠ 10 ∧ n ≠ 44 := by
  simp only [isHexN, Bool.or_eq_true, Bool.and_eq_true, decide_eq_true_eq] at h
  omega

/-! ## Checksum lemmas -/

theorem checksumChars_length (lower : Str) : (checksumChars lower).length = lower.length := by
  simp [checksumChars]

theorem getD_mem {α : Type} [DecidableEq α] {l : List α} {i : Nat} (d : α) (h : i < l.length) :
    l.getD i d ∈ l := by
  rw [List.getD_eq_getElem _ _ h]
  exact List.getElem_mem _

theorem checksumChars_mem {lower : Str} (hlow : ∀ c ∈ lower, isLowerHexN c = true) :
    ∀ c ∈ checksumChars lower, isHexN c = true := by
  intro c hc
  simp only [checksumChars, List.mem_map, List.mem_range] at hc
  obtain ⟨i, hi, rfl⟩ := hc
  have hx : isLowerHexN (List.getD lower i 0) = true := hlow _ (getD_mem 0 hi)
  split <;> split <;> first
    | exact toUpperN_hex hx
    | exact isLowerHexN_isHexN hx

theorem lowerStr_checksumChars {lower : Str} (hlow : ∀ c ∈ lower, isLowerHexN c = true) :
    lowerStr (checksumChars lower) = lower := by
  apply List.ext_getElem
  · simp [lowerStr, checksumChars_length]
  · intro i h1 h2
    simp only [lowerStr, checksumChars, List.getElem_map, List.getElem_range]
    have hx : isLowerHexN (List.getD lower i 0) = true := hlow _ (getD_mem 0 h2)
    have hget : List.getD lower i 0 = lower[i] := List.getD_eq_getElem _ _ h2
    split <;> split <;> first
      | rw [toLowerN_toUpperN hx, hget]
      | rw [toLowerN_fix hx, hget]

/-! ## Shape and idempotence of getAddress -/

/-- A successful normalization: the input is 40 hex digits with an
optional `0x` prefix, and the output is the prefixed checksummed form of
its lowercase hex digits. -/
theorem getAddress_some_shape {s r : Str} (h : getAddress s = some r) :
    ∃ h40 : Str, h40.length = 40 ∧ (∀ c ∈ h40, isHexN c = true) ∧
      (s = 48 :: 120 :: h40 ∨ s = h40) ∧
      r = 48 :: 120 :: checksumChars (lowerStr h40) := by
  unfold getAddress at h
  rcases hh : hex40? s with _ | h40
  · rw [hh] at h
    simp at h
  · rw [hh] at h
    simp only at h
    split at h
    · simp at h
    · simp only [Option.some.injEq] at h
      subst h
      unfold hex40? at hh
      split at hh
      · rename_i hcond
        obtain ⟨hlen, h0, h1, hall⟩ := hcond
        simp only [Option.some.injEq] at hh
        subst hh
        refine ⟨s.drop 2, by simp [hlen], ?_, ?_, rfl⟩
        · intro c hc
          have := List.all_eq_true.mp hall
          exact this c hc
        · left
          rcases s with _ | ⟨c0, s⟩
          · simp at hlen
          · rcases s with _ | ⟨c1, s⟩
            · simp at hlen
            · simp only [List.getD_cons_zero, List.getD_cons_succ] at h0 h1
              subst h0 h1
              rfl
      · split at hh
        · rename_i hcond
          obtain ⟨hlen, hall⟩ := hcond
          simp only [Option.some.injEq] at hh
          subst hh
          refine ⟨s, hlen, ?_, Or.inr rfl, rfl⟩
          intro c hc
          have := List.all_eq_true.mp hall
          exact this c hc
        · simp at hh

theorem lowerStr_getAddress_out {h40 : Str} (hhex : ∀ c ∈ h40, isHexN c = true) :
    lowerStr (48 :: 120 :: checksumChars (lowerStr h40)) = 48 :: 120 :: lowerStr h40 := by
  have hlow : ∀ c ∈ lowerStr h40, isLowerHexN c = true := by
    intro c hc
    simp only [lowerStr, List.mem_map] at hc
    obtain ⟨x, hx, rfl⟩ := hc
    exact toLowerN_hex (hhex x hx)
  simp only [lowerStr, List.map_cons]
  rw [show toLowerN 48 = 48 from rfl, show toLowerN 120 = 120 from rfl]
  have := lowerStr_checksumChars hlow
  simp only [lowerStr] at this
  rw [this]

/-- `getAddress` is idempotent: its output re-normalizes to itself. -/
theorem getAddress_idem {s r : Str} (h : getAddress s = some r) : getAddress r = some r := by
  obtain ⟨h40, hlen, hhex, _, hr⟩ := getAddress_some_shape h
  have hlow : ∀ c ∈ lowerStr h40, isLowerHexN c = true := by
    intro c hc
    simp only [lowerStr, List.mem_map] at hc
    obtain ⟨x, hx, rfl⟩ := hc
    exact toLowerN_hex (hhex x hx)
  have hcslen : (checksumChars (lowerStr h40)).length = 40 := by
    rw [checksumChars_length]
    simp [lowerStr, hlen]
  have hcshex : ∀ c ∈ checksumChars (lowerStr h40), isHexN c = true := checksumChars_mem hlow
  have hh40 : hex40? r = some (checksumChars (lowerStr h40)) := by
    unfold hex40?
    rw [hr]
    rw [if_pos]
    · simp
    · refine ⟨by simp [hcslen], rfl, rfl, ?_⟩
      simp only [List.drop_succ_cons, List.drop_zero]
      exact List.all_eq_true.mpr (fun c hc => hcshex c hc)
  unfold getAddress
  rw [hh40]
  simp only
  have hlcs : lowerStr (checksumChars (lowerStr h40)) = lowerStr h40 := lowerStr_checksumChars hlow
  rw [hlcs]
  rw [if_neg]
  · rw [hr]
  · simp

/-- Two normalization outputs with the same lowercase form are equal:
a checksummed string is a function of its own lowercase hex digits. -/
theorem getAddress_out_eq {s1 s2 r1 r2 : Str} (h1 : getAddress s1 = some r1)
    (h2 : getAddress s2 = some r2) (hl : lowerStr r1 = lowerStr r2) : r1 = r2 := by
  obtain ⟨a1, _, hhex1, _, hr1⟩ := getAddress_some_shape h1
  obtain ⟨a2, _, hhex2, _, hr2⟩ := getAddress_some_shape h2
  rw [hr1, hr2, lowerStr_getAddress_out hhex1, lowerStr_getAddress_out hhex2] at hl
  simp only [List.cons.injEq, true_and] at hl
  rw [hr1, hr2, hl]

theorem hashAddress_of_out {s r : Str} (h : getAddress s = some r) :
    hashAddress r = some (keccak256 (hexPairsToBytes (r.drop 2))) := by
  simp [hashAddress, getAddress_idem h]

theorem hashAddress_eq_of_getAddress {s r : Str} (h : getAddress s = some r) :
    hashAddress s = hashAddress r := by
  simp [hashAddress, h, getAddress_idem h]

/-! ## Trim lemmas -/

theorem dropWhile_eq_self_of_not {p : Nat → Bool} {l : List Nat}
    (h : ∀ c ∈ l, p c = false) : List.dropWhile p l = l := by
  cases l with
  | nil => rfl
  | cons a t =>
      rw [List.dropWhile_cons, if_neg]
      simp [h a (List.mem_cons_self ..)]

theorem trim_eq_self {s : Str} (h : ∀ c ∈ s, isWsN c = false) : trim s = s := by
  unfold trim
  rw [dropWhile_eq_self_of_not h, dropWhile_eq_self_of_not (by simpa using h), List.reverse_reverse]

/-- A string accepted by `getAddress` has no surrounding whitespace, so
trimming it first makes no difference. -/
theorem trim_of_valid {s : Str} (h : (getAddress s).isSome) : trim s = s := by
  obtain ⟨r, hr⟩ := Option.isSome_iff_exists.mp h
  obtain ⟨h40, _, hhex, hs, _⟩ := getAddress_some_shape hr
  apply trim_eq_self
  intro c hc
  rcases hs with rfl | rfl
  · simp only [List.mem_cons] at hc
    rcases hc with rfl | rfl | hc
    · rfl
    · rfl
    · exact isHexN_not_ws (hhex c hc)
  · exact isHexN_not_ws (hhex c hc)

/-! ## mapM over Option -/

theorem mapM_congr {g g' : Str → Option Str} :
    ∀ l : List Str, (∀ a ∈ l, g a = g' a) → l.mapM g = l.mapM g' := by
  intro l
  induction l with
  | nil => intro _; rfl
  | cons a t ih =>
      intro h
      rw [List.mapM_cons, List.mapM_cons, h a (List.mem_cons_self ..),
        ih (fun x hx => h x (List.mem_cons_of_mem _ hx))]

theorem mapM_eq_map_of_isSome {α β : Type} [Inhabited β] {g : α → Option β} :
    ∀ l : List α, (∀ a ∈ l, (g a).isSome) →
      l.mapM g = some (l.map (fun a => (g a).getD default)) := by
  intro l
  induction l with
  | nil => intro _; rfl
  | cons a t ih =>
      intro h
      obtain ⟨v, hv⟩ := Option.isSome_iff_exists.mp (h a (List.mem_cons_self ..))
      rw [List.mapM_cons, hv, ih (fun x hx => h x (List.mem_cons_of_mem _ hx))]
      simp [hv]

theorem mapM_eq_none_iff {α β : Type} {g : α → Option β} :
    ∀ l : List α, l.mapM g = none ↔ ∃ a ∈ l, g a = none := by
  intro l
  induction l with
  | nil =>
      rw [show (([] : List α).mapM g) = some [] from rfl]
      simp
  | cons a t ih =>
      rw [List.mapM_cons]
      cases hg : g a with
      | none => simp [hg]
      | some v =>
          simp only [hg, Option.bind_eq_bind, Option.some_bind]
          constructor
          · intro h
            cases ht : t.mapM g with
            | none =>
                obtain ⟨x, hx, hgx⟩ := ih.mp ht
                exact ⟨x, List.mem_cons_of_mem _ hx, hgx⟩
            | some vs => rw [ht] at h; simp at h
          · intro ⟨x, hx, hgx⟩
            rcases List.mem_cons.mp hx with rfl | hx
            · rw [hgx] at hg; cases hg
            · rw [ih.mpr ⟨x, hx, hgx⟩]
              rfl

/-! ## Dedup lemmas -/

theorem dedup_foldl_mem (x : Str) :
    ∀ (l : List Str) (acc : List Str),
      (x ∈ l.foldl (fun acc y => if y ∈ acc then acc else acc ++ [y]) acc ↔ x ∈ acc ∨ x ∈ l) := by
  intro l
  induction l with
  | nil => simp
  | cons a t ih =>
      intro acc
      rw [List.foldl_cons, ih]
      by_cases ha : a ∈ acc
      · rw [if_pos ha]
        constructor
        · rintro (h | h)
          · exact Or.inl h
          · exact Or.inr (List.mem_cons_of_mem _ h)
        · rintro (h | h)
          · exact Or.inl h
          · rcases List.mem_cons.mp h with rfl | h
            · exact Or.inl ha
            · exact Or.inr h
      · rw [if_neg ha]
        simp only [List.mem_append, List.mem_singleton, List.mem_cons]
        tauto

theorem dedup_mem {x : Str} {l : List Str} : x ∈ dedup l ↔ x ∈ l := by
  unfold dedup
  rw [dedup_foldl_mem]
  simp

theorem dedup_append_mem {l : List Str} {x : Str} (h : x ∈ l) : dedup (l ++ [x]) = dedup l := by
  unfold dedup
  rw [List.foldl_append]
  simp only [List.foldl_cons, List.foldl_nil]
  rw [if_pos]
  rw [dedup_foldl_mem]
  exact Or.inr h

theorem dedup_foldl_nodup :
    ∀ (l : List Str) (acc : List Str), acc.Nodup →
      (l.foldl (fun acc y => if y ∈ acc then acc else acc ++ [y]) acc).Nodup := by
  intro l
  induction l with
  | nil => intro acc h; exact h
  | cons a t ih =>
      intro acc h
      rw [List.foldl_cons]
      by_cases ha : a ∈ acc
      · rw [if_pos ha]; exact ih acc h
      · rw [if_neg ha]
        apply ih
        simp [List.nodup_append, h, ha]

theorem dedup_nodup (l : List Str) : (dedup l).Nodup := dedup_foldl_nodup l [] List.nodup_nil

theorem dedup_foldl_of_nodup :
    ∀ (l : List Str) (acc : List Str), l.Nodup → (∀ x ∈ l, x ∉ acc) →
      l.foldl (fun acc y => if y ∈ acc then acc else acc ++ [y]) acc = acc ++ l := by
  intro l
  induction l with
  | nil => intro acc _ _; simp
  | cons a t ih =>
      intro acc hnd hdis
      rw [List.foldl_cons, if_neg (hdis a (List.mem_cons_self ..))]
      rw [ih (acc ++ [a]) (List.Nodup.of_cons hnd)]
      · simp
      · intro x hx
        simp only [List.mem_append, List.mem_singleton]
        rintro (h | rfl)
        · exact hdis x (List.mem_cons_of_mem _ hx) h
        · exact (List.nodup_cons.mp hnd).1 hx

theorem dedup_idem (l : List Str) : dedup (dedup l) = dedup l :=
  (dedup_foldl_of_nodup (dedup l) [] (dedup_nodup l) (by simp)).trans (by simp)

theorem dedup_of_nodup {l : List Str} (h : l.Nodup) : dedup l = l :=
  (dedup_foldl_of_nodup l [] h (by simp)).trans (by simp)

theorem dedup_sublist (l : List Str) : (dedup l).Sublist l := by
  suffices h : ∀ (l : List Str) (acc : List Str),
      ∃ l', l.foldl (fun acc y => if y ∈ acc then acc else acc ++ [y]) acc = acc ++ l' ∧
        l'.Sublist l by
    obtain ⟨l', hl', hs⟩ := h l []
    unfold dedup
    rw [hl']
    simpa using hs
  intro l
  induction l with
  | nil => intro acc; exact ⟨[], by simp, List.Sublist.refl _⟩
  | cons a t ih =>
      intro acc
      rw [List.foldl_cons]
      by_cases ha : a ∈ acc
      · rw [if_pos ha]
        obtain ⟨l', hl', hs⟩ := ih acc
        exact ⟨l', hl', List.Sublist.cons _ hs⟩
      · rw [if_neg ha]
        obtain ⟨l', hl', hs⟩ := ih (acc ++ [a])
        refine ⟨a :: l', by rw [hl']; simp, List.Sublist.cons₂ _ hs⟩

theorem dedup_ne_nil {l : List Str} (h : l ≠ []) : dedup l ≠ [] := by
  intro hd
  rcases l with _ | ⟨a, t⟩
  · exact h rfl
  · have : a ∈ dedup (a :: t) := dedup_mem.mpr (List.mem_cons_self ..)
    rw [hd] at this
    simp at this

/-! ## Address index lemmas -/

theorem mapGet_foldl_some {k : Str} :
    ∀ (m : List (Str × Nat)) (acc : Option Nat) (v : Nat),
      m.foldl (fun acc p => if p.1 = k then some p.2 else acc) acc = some v →
      (k, v) ∈ m ∨ acc = some v := by
  intro m
  induction m with
  | nil => intro acc v h; exact Or.inr h
  | cons p rest ih =>
      intro acc v h
      rw [List.foldl_cons] at h
      rcases ih _ v h with hm | hacc
      · exact Or.inl (List.mem_cons_of_mem _ hm)
      · by_cases hp : p.1 = k
        · rw [if_pos hp] at hacc
          left
          simp only [Option.some.injEq] at hacc
          have : p = (k, v) := by
            rcases p with ⟨p1, p2⟩
            simp only at hp hacc
            rw [hp, hacc]
          rw [← this]
          exact List.mem_cons_self ..
        · rw [if_neg hp] at hacc
          exact Or.inr hacc

theorem mapGet_foldl_isSome {k : Str} :
    ∀ (m : List (Str × Nat)) (acc : Option Nat),
      ((∃ p ∈ m, p.1 = k) ∨ acc.isSome) →
      (m.foldl (fun acc p => if p.1 = k then some p.2 else acc) acc).isSome := by
  intro m
  induction m with
  | nil =>
      intro acc h
      rcases h with ⟨p, hp, _⟩ | h
      · simp at hp
      · exact h
  | cons p rest ih =>
      intro acc h
      rw [List.foldl_cons]
      apply ih
      rcases h with ⟨q, hq, hqk⟩ | h
      · rcases List.mem_cons.mp hq with rfl | hq
        · right
          rw [if_pos hqk]
          rfl
        · exact Or.inl ⟨q, hq, hqk⟩
      · right
        split
        · rfl
        · exact h

theorem mapGet_some_mem {m : List (Str × Nat)} {k : Str} {v : Nat}
    (h : mapGet m k = some v) : (k, v) ∈ m := by
  rcases mapGet_foldl_some m none v h with hm | hacc
  · exact hm
  · cases hacc

theorem mapGet_isSome_of_mem {m : List (Str × Nat)} {k : Str}
    (h : ∃ p ∈ m, p.1 = k) : (mapGet m k).isSome :=
  mapGet_foldl_isSome m none (Or.inl h)

theorem mkIndexAux_mem :
    ∀ (ns : List Str) (i : Nat) (k : Str) (v : Nat), (k, v) ∈ mkIndexAux i ns →
      ∃ j, j < ns.length ∧ v = i + j ∧ k = lowerStr (ns.getD j []) := by
  intro ns
  induction ns with
  | nil => intro i k v h; simp [mkIndexAux] at h
  | cons a rest ih =>
      intro i k v h
      rw [mkIndexAux] at h
      rcases List.mem_cons.mp h with heq | h
      · refine ⟨0, by simp, ?_, ?_⟩
        · have := congrArg Prod.snd heq
          simpa using this
        · have := congrArg Prod.fst heq
          simpa using this
      · obtain ⟨j, hj, hv, hk⟩ := ih (i + 1) k v h
        exact ⟨j + 1, by simpa using hj, by omega, by simpa using hk⟩

theorem mkIndexAux_key_mem {a : Str} :
    ∀ (ns : List Str) (i : Nat), a ∈ ns →
      ∃ p ∈ mkIndexAux i ns, p.1 = lowerStr a := by
  intro ns
  induction ns with
  | nil => intro i h; simp at h
  | cons b rest ih =>
      intro i h
      rcases List.mem_cons.mp h with rfl | h
      · exact ⟨(lowerStr a, i), List.mem_cons_self .., rfl⟩
      · obtain ⟨p, hp, hpk⟩ := ih (i + 1) h
        exact ⟨p, List.mem_cons_of_mem _ hp, hpk⟩

theorem mapGet_mkIndex_some {ns : List Str} {k : Str} {v : Nat}
    (h : mapGet (mkIndex ns) k = some v) :
    v < ns.length ∧ lowerStr (ns.getD v []) = k := by
  obtain ⟨j, hj, hv, hk⟩ := mkIndexAux_mem ns 0 k v (mapGet_some_mem h)
  have : v = j := by omega
  subst this
  exact ⟨hj, hk.symm⟩

theorem mapGet_mkIndex_isSome {ns : List Str} {a : Str} (h : a ∈ ns) :
    (mapGet (mkIndex ns) (lowerStr a)).isSome :=
  mapGet_isSome_of_mem (mkIndexAux_key_mem ns 0 h)

/-! ## The successful build -/

theorem treeData_build {w : List Str} (hw : w ≠ []) {cas leaves : List Str}
    (h1 : w.mapM (fun addr => getAddress (trim addr)) = some cas)
    (h2 : (dedup cas).mapM hashAddress = some leaves) :
    treeData w = ⟨leaves, buildTree leaves,
      (if buildTree leaves = [] then ZeroHash else hex0x (rootNode (buildTree leaves))),
      mkIndex (dedup cas), some (dedup cas)⟩ := by
  unfold treeData treeDataCore
  rw [if_neg hw, h1]
  have h2l : List.mapM.loop hashAddress (dedup cas) [] = some leaves := h2
  simp [h2l]

/-! ## Glue lemmas for the engine-level claims -/

theorem headD_mem {l : List Str} (h : l ≠ []) : l.headD [] ∈ l := by
  cases l with
  | nil => exact absurd rfl h
  | cons a t => exact List.mem_cons_self ..

theorem getD_map_of_lt {α β : Type} (f : α → β) (l : List α) (i : Nat) (d : β) (d' : α)
    (h : i < l.length) : (l.map f).getD i d = f (l.getD i d') := by
  rw [List.getD_eq_getElem _ _ (by simpa using h), List.getD_eq_getElem _ _ h, List.getElem_map]

theorem mapM_some_all_isSome {α β : Type} {g : α → Option β} {l : List α} {cas : List β}
    (h : l.mapM g = some cas) : ∀ a ∈ l, (g a).isSome := by
  intro a ha
  cases hg : g a with
  | none =>
      rw [(mapM_eq_none_iff l).mpr ⟨a, ha, hg⟩] at h
      cases h
  | some v => rfl

theorem mapM_some_eq_map {α β : Type} [Inhabited β] {g : α → Option β} {l : List α}
    {cas : List β} (h : l.mapM g = some cas) :
    cas = l.map (fun a => (g a).getD default) := by
  have := mapM_eq_map_of_isSome l (mapM_some_all_isSome h)
  rw [h] at this
  exact (Option.some.injEq ..).mp this

theorem mapM_some_length {α β : Type} {g : α → Option β} :
    ∀ {l : List α} {cas : List β}, l.mapM g = some cas → cas.length = l.length := by
  intro l
  induction l with
  | nil =>
      intro cas h
      rw [show ([] : List α).mapM g = some [] from rfl] at h
      cases h
      rfl
  | cons a t ih =>
      intro cas h
      rw [List.mapM_cons] at h
      cases hg : g a with
      | none => rw [hg] at h; simp at h
      | some v =>
          rw [hg] at h
          cases ht : t.mapM g with
          | none => rw [ht] at h; simp at h
          | some vs =>
              rw [ht] at h
              simp only [Option.bind_eq_bind, Option.some_bind] at h
              cases h
              simp [ih ht]

/-- Every entry of the normalized list delivered by the first `mapM` is
an output of `getAddress`. -/
theorem cas_outputs {w cas : List Str}
    (h : w.mapM (fun addr => getAddress (trim addr)) = some cas) :
    ∀ c ∈ cas, ∃ s, getAddress s = some c := by
  intro c hc
  rw [mapM_some_eq_map h] at hc
  obtain ⟨a, _, hac⟩ := List.mem_map.mp hc
  have hsome := mapM_some_all_isSome h a (by assumption)
  obtain ⟨v, hv⟩ := Option.isSome_iff_exists.mp hsome
  refine ⟨trim a, ?_⟩
  rw [hv]
  rw [hv] at hac
  simp at hac
  rw [hac]

theorem leaves_mapM_some {ns : List Str} (h : ∀ c ∈ ns, ∃ s, getAddress s = some c) :
    ns.mapM hashAddress = some (ns.map (fun c => (hashAddress c).getD default)) := by
  apply mapM_eq_map_of_isSome
  intro c hc
  obtain ⟨s, hs⟩ := h c hc
  rw [hashAddress_of_out hs]
  rfl

theorem treeData_of_core_none {w : List Str} (h : treeDataCore w = none) :
    treeData w = emptyTreeData := by
  unfold treeData
  split
  · rfl
  · rw [h]
    rfl

theorem treeDataCore_cases (w : List Str) :
    treeDataCore w = none ∨
      ∃ cas leaves, w.mapM (fun addr => getAddress (trim addr)) = some cas ∧
        (dedup cas).mapM hashAddress = some leaves := by
  cases hmap : w.mapM (fun addr => getAddress (trim addr)) with
  | none =>
      left
      unfold treeDataCore
      rw [hmap]
      rfl
  | some cas =>
      cases hlv : (dedup cas).mapM hashAddress with
      | none =>
          left
          unfold treeDataCore
          rw [hmap, Option.some_bind]
          have hl : List.mapM.loop hashAddress (dedup cas) [] = none := hlv
          simp [hl]
      | some leaves => exact Or.inr ⟨cas, leaves, rfl, hlv⟩

/-! ## Split and join -/

theorem splitSeps_cons (c : Nat) (rest : Str) :
    splitSeps (c :: rest) =
      if c = 10 ∨ c = 44 then [] :: splitSeps rest
      else
        match splitSeps rest with
        | [] => [[c]]
        | p :: ps => (c :: p) :: ps := rfl

theorem splitSeps_no_sep {x : Str} (h : ∀ c ∈ x, ¬(c = 10 ∨ c = 44)) :
    splitSeps x = [x] := by
  induction x with
  | nil => rfl
  | cons c t ih =>
      rw [splitSeps_cons, if_neg (h c (List.mem_cons_self ..)),
        ih (fun d hd => h d (List.mem_cons_of_mem _ hd))]

theorem splitSeps_append_sep {x t : Str} (h : ∀ c ∈ x, ¬(c = 10 ∨ c = 44)) :
    splitSeps (x ++ 10 :: t) = x :: splitSeps t := by
  induction x with
  | nil =>
      simp only [List.nil_append]
      rw [splitSeps_cons, if_pos (Or.inl rfl)]
  | cons c x' ih =>
      simp only [List.cons_append]
      rw [splitSeps_cons, if_neg (h c (List.mem_cons_self ..)),
        ih (fun d hd => h d (List.mem_cons_of_mem _ hd))]

theorem splitSeps_joinNL {ns : List Str} (hne : ns ≠ [])
    (h : ∀ x ∈ ns, ∀ c ∈ x, ¬(c = 10 ∨ c = 44)) :
    splitSeps (joinNL ns) = ns := by
  induction ns with
  | nil => exact absurd rfl hne
  | cons x rest ih =>
      cases rest with
      | nil => exact splitSeps_no_sep (h x (List.mem_cons_self ..))
      | cons y rest' =>
          show splitSeps (x ++ 10 :: joinNL (y :: rest')) = _
          rw [splitSeps_append_sep (h x (List.mem_cons_self ..))]
          rw [ih (by simp) (fun z hz => h z (List.mem_cons_of_mem _ hz))]

/-! ## Concrete addresses for witnesses and counterexamples -/

def addr1 : Str := jstr "0x1111111111111111111111111111111111111111"

def addr2 : Str := jstr "0x2222222222222222222222222222222222222222"

def addr3 : Str := jstr "0x3333333333333333333333333333333333333333"

/-- A string that does not parse as an address. -/
def addrBad : Str := jstr "not-an-address"

/-! ## The claims -/

/-- C7: the empty address list yields the designated zero root (32 zero
bytes) and an empty layer sequence, `generateMerkleRoot` of the empty
list is the zero root, and `isWhitelisted` is `false` for every
address — the empty whitelist is a regular state, not an error. -/
theorem claim7_empty_tree :
    (treeData []).root = ZeroHash ∧ (treeData []).layers = [] ∧
      generateMerkleRoot [] = ZeroHash ∧
      ∀ address : Str, isWhitelisted [] address = false := by
  refine ⟨rfl, rfl, rfl, ?_⟩
  intro address
  unfold isWhitelisted
  cases h : getAddress address with
  | none => rfl
  | some ca => rfl

/-- C5: loading a whitelist never fails as a whole: the returned flag is
`true` for every input sequence, an entry is kept exactly when it is a
member of the input whose trimmed form parses as a 20-byte hex address
(`getAddress`, which accepts an optional `0x` prefix and an optional
mixed-case checksum), and the empty string is rejected.  Rejected
entries are silently dropped; the operations are total, so no malformed
entry aborts the load. -/
theorem claim5_load_never_fails (addresses : List Str) :
    (loadWhitelist addresses).1 = true ∧
      (∀ a, a ∈ (loadWhitelist addresses).2 ↔
        a ∈ addresses ∧ (getAddress (trim a)).isSome) ∧
      getAddress [] = none := by
  refine ⟨rfl, ?_, rfl⟩
  intro a
  simp [loadWhitelist, List.mem_filter]

/-- C5 witness: a concrete load with a checksummed entry, a bare-hex
entry, a whitespace-padded entry, and a malformed entry: the flag is
`true`, the three valid entries are kept and the malformed one is
dropped. -/
theorem claim5_witness :
    (loadWhitelist [addr1, addrBad] |>.1) = true ∧
      addr1 ∈ (loadWhitelist [addr1, addrBad]).2 ∧
      ¬ addrBad ∈ (loadWhitelist [addr1, addrBad]).2 := by
  refine ⟨(claim5_load_never_fails [addr1, addrBad]).1, ?_, ?_⟩
  · exact ((claim5_load_never_fails [addr1, addrBad]).2.1 addr1).mpr
      ⟨by decide, by decide⟩
  · intro hmem
    have := ((claim5_load_never_fails [addr1, addrBad]).2.1 addrBad).mp hmem
    exact absurd this.2 (by decide)

/-- C3: a layer with an odd number of nodes promotes its last node
unchanged to the next layer (it is not hashed with itself nor with
zero-padding), and the proof walk emits no sibling at a level where the
current node has none. -/
theorem claim3_odd_promotion :
    (∀ l : List (List Nat), l.length % 2 = 1 →
      (nextLayer l).length = l.length / 2 + 1 ∧
        (nextLayer l).getD (l.length / 2) [] = l.getD (l.length - 1) []) ∧
      ∀ (layer : List (List Nat)) (rest : List (List (List Nat))) (idx : Nat),
        idx % 2 = 0 → layer.length ≤ idx + 1 →
        getProof (layer :: rest) idx = getProof rest (idx / 2) := by
  constructor
  · intro l hodd
    constructor
    · rw [nextLayer_length]
      omega
    · have h1 : 2 * (l.length / 2) < l.length := by omega
      have h2 : l.length ≤ 2 * (l.length / 2) + 1 := by omega
      rw [nextLayer_getD_promote l _ h1 h2]
      congr 1
      omega
  · intro layer rest idx hmod hlen
    cases rest with
    | nil => rfl
    | cons next rs =>
        rw [getProof_cons]
        have hsv : (if idx % 2 = 1 then idx - 1 else idx + 1) = idx + 1 := by
          rw [if_neg (by omega)]
        rw [hsv, if_neg (by omega), List.nil_append]

/-- C3 witness: a three-node layer promotes its third node unchanged,
and the proof walk for the promoted position skips the level. -/
theorem claim3_witness :
    ((nextLayer [[1], [2], [3]]).length = ([[1], [2], [3]] : List (List Nat)).length / 2 + 1 ∧
      (nextLayer [[1], [2], [3]]).getD (([[1], [2], [3]] : List (List Nat)).length / 2) [] =
        ([[1], [2], [3]] : List (List Nat)).getD
          (([[1], [2], [3]] : List (List Nat)).length - 1) []) ∧
      getProof [[[9]], [[8]], [[7]]] 2 = getProof [[[8]], [[7]]] 1 :=
  ⟨claim3_odd_promotion.1 [[1], [2], [3]] (by decide),
   claim3_odd_promotion.2 [[9]] [[[8]], [[7]]] 2 (by decide) (by decide)⟩

/-- C8: for any address whose normalization is not a key of the built
index — including strings that do not parse as an address at all —
`isWhitelisted` is `false` and `getProofForAddress` is the empty proof;
both are total functions of the state (the source wraps them in
`try`/`catch`), so neither throws. -/
theorem claim8_nonmember_fails_closed (whitelist : List Str) (b : Str)
    (h : ∀ ca, getAddress b = some ca →
      mapGet (treeData whitelist).addressToIndex (lowerStr ca) = none) :
    isWhitelisted whitelist b = false ∧ getProofForAddress whitelist b = [] := by
  cases hb : getAddress b with
  | none => exact ⟨by simp [isWhitelisted, hb], by simp [getProofForAddress, hb]⟩
  | some ca =>
      have hca := h ca hb
      exact ⟨by simp [isWhitelisted, hb, hca], by simp [getProofForAddress, hb, hca]⟩

/-- C8 witness: an unparsable string against a one-address whitelist is
not whitelisted and gets the empty proof. -/
theorem claim8_witness :
    isWhitelisted [addr1] addrBad = false ∧ getProofForAddress [addr1] addrBad = [] :=
  claim8_nonmember_fails_closed [addr1] addrBad (by
    intro ca hca
    rw [show getAddress addrBad = none from by decide] at hca
    cases hca)

set_option maxRecDepth 100000 in
/-- C4 counterexample: the claim says a failing rebuild retains the
previously built tree.  In the code the `catch` branch returns the empty
tree data, so rebuilding a built one-address tree with an input whose
construction throws yields the empty state, not the previous tree. -/
theorem claim4_counterexample :
    rebuildStep (treeData [addr1]) [addrBad] = emptyTreeData ∧
      treeData [addr1] ≠ emptyTreeData := by
  constructor
  · decide
  · decide

/-- C4 amended: when the construction step of a rebuild throws, the
engine does not retain the previous tree; it atomically resets to the
empty tree data (zero root, no layers, empty index), so no half-built
state is ever visible. -/
theorem claim4_amended_reset (previous : TreeData) (w : List Str)
    (h : treeDataCore w = none) : rebuildStep previous w = emptyTreeData := by
  unfold rebuildStep treeData
  split
  · rfl
  · rw [h]
    rfl

/-- C4 amended witness: rebuilding with a list containing an unparsable
entry resets to the empty tree data. -/
theorem claim4_amended_witness :
    treeDataCore [addrBad] = none ∧
      rebuildStep emptyTreeData [addrBad] = emptyTreeData :=
  ⟨by decide, claim4_amended_reset emptyTreeData [addrBad] (by decide)⟩

/-- C10: for a whitelist of exactly one valid address, the proof for
that member address is the empty sequence — the same value returned for
a non-member — and yet `verifyProof` accepts the empty proof for it, so
an empty proof does not by itself distinguish the member of a
one-address whitelist from a non-member. -/
theorem claim10_singleton_empty_proof (a : Str) (h : (getAddress a).isSome) :
    getProofForAddress [a] a = [] ∧ verifyProof [a] [] a = true ∧
      ∀ b, getAddress b = none → getProofForAddress [a] b = [] := by
  obtain ⟨ca, hca⟩ := Option.isSome_iff_exists.mp h
  have htrim : trim a = a := trim_of_valid h
  have h1 : ([a] : List Str).mapM (fun addr => getAddress (trim addr)) = some [ca] := by
    rw [List.mapM_cons]
    simp only [htrim, hca]
    rfl
  have hded : dedup [ca] = [ca] := by simp [dedup]
  have hhash : hashAddress ca = some (keccak256 (hexPairsToBytes (ca.drop 2))) :=
    hashAddress_of_out hca
  have h2 : (dedup [ca]).mapM hashAddress =
      some [keccak256 (hexPairsToBytes (ca.drop 2))] := by
    rw [hded, List.mapM_cons, hhash]
    rfl
  have htd := treeData_build (w := [a]) (by simp) h1 h2
  have hbt : buildTree [keccak256 (hexPairsToBytes (ca.drop 2))] =
      [[keccak256 (hexPairsToBytes (ca.drop 2))]] := by
    unfold buildTree
    rw [if_neg (by simp), buildLayers_eq]
    simp
  have hmg : mapGet (mkIndex (dedup [ca])) (lowerStr ca) = some 0 := by
    rw [hded]
    simp [mkIndex, mkIndexAux, mapGet]
  refine ⟨?_, ?_, ?_⟩
  · simp only [getProofForAddress, hca, htd, hmg, hbt]
    rfl
  · simp only [verifyProof, hashAddress, hca, Option.map_some, List.foldl_nil, htd, hbt]
    rw [if_neg (by simp)]
    simp [rootNode]
  · intro b hb
    simp [getProofForAddress, hb]

set_option maxRecDepth 100000 in
/-- C10 witness: a concrete one-address whitelist where the member's
proof is empty and the empty proof verifies. -/
theorem claim10_witness :
    (getAddress addr1).isSome ∧ getProofForAddress [addr1] addr1 = [] ∧
      verifyProof [addr1] [] addr1 = true :=
  ⟨by decide, (claim10_singleton_empty_proof addr1 (by decide)).1,
    (claim10_singleton_empty_proof addr1 (by decide)).2.1⟩

set_option maxRecDepth 1000000 in
set_option maxHeartbeats 2000000 in
/-- C2 counterexample: the root is not invariant under every
permutation of the address list.  Swapping the second and third of three
addresses changes which leaves are paired, and the roots differ: the
sorted-pair rule only cancels the order within one hashed pair, and the
leaves are never sorted. -/
theorem claim2_counterexample :
    ¬ (generateMerkleRoot [addr1, addr2, addr3] =
        generateMerkleRoot [addr1, addr3, addr2]) := by
  decide

/-- C2 amended: the root is invariant under swapping the two entries of
a two-address list (sorted-pair hashing cancels the order inside a
single pair, and failure and dedup behave symmetrically); for three or
more distinct addresses a permutation can change the pairing and with it
the root, as the counterexample shows. -/
theorem claim2_amended_pair_swap (a b : Str) :
    generateMerkleRoot [a, b] = generateMerkleRoot [b, a] := by
  unfold generateMerkleRoot
  rw [if_neg (by simp), if_neg (by simp)]
  cases ha : getAddress (trim a) with
  | none =>
      have h1 : ([a, b] : List Str).mapM (fun addr => getAddress (trim addr)) = none :=
        (mapM_eq_none_iff _).mpr ⟨a, by simp, ha⟩
      have h2 : ([b, a] : List Str).mapM (fun addr => getAddress (trim addr)) = none :=
        (mapM_eq_none_iff _).mpr ⟨a, by simp, ha⟩
      rw [h1, h2]
  | some ca =>
      cases hb : getAddress (trim b) with
      | none =>
          have h1 : ([a, b] : List Str).mapM (fun addr => getAddress (trim addr)) = none :=
            (mapM_eq_none_iff _).mpr ⟨b, by simp, hb⟩
          have h2 : ([b, a] : List Str).mapM (fun addr => getAddress (trim addr)) = none :=
            (mapM_eq_none_iff _).mpr ⟨b, by simp, hb⟩
          rw [h1, h2]
      | some cb =>
          obtain ⟨la, hla⟩ : ∃ la, hashAddress ca = some la := ⟨_, hashAddress_of_out ha⟩
          obtain ⟨lb, hlb⟩ : ∃ lb, hashAddress cb = some lb := ⟨_, hashAddress_of_out hb⟩
          have h1 : ([a, b] : List Str).mapM (fun addr => getAddress (trim addr)) =
              some [ca, cb] := by
            rw [List.mapM_cons, ha, List.mapM_cons, hb]
            rfl
          have h2 : ([b, a] : List Str).mapM (fun addr => getAddress (trim addr)) =
              some [cb, ca] := by
            rw [List.mapM_cons, hb, List.mapM_cons, ha]
            rfl
          rw [h1, h2, Option.some_bind, Option.some_bind]
          by_cases hcc : cb = ca
          · subst hcc
            rfl
          · have hd1 : dedup [ca, cb] = [ca, cb] := by
              simp [dedup, hcc]
            have hcc2 : ¬ ca = cb := fun hx => hcc hx.symm
            have hd2 : dedup [cb, ca] = [cb, ca] := by
              simp [dedup, hcc2]
            have hm1 : ([ca, cb] : List Str).mapM hashAddress = some [la, lb] := by
              rw [List.mapM_cons, hla, List.mapM_cons, hlb]
              rfl
            have hm2 : ([cb, ca] : List Str).mapM hashAddress = some [lb, la] := by
              rw [List.mapM_cons, hlb, List.mapM_cons, hla]
              rfl
            have hbt1 : buildTree [la, lb] = [[la, lb], [hashPair la lb]] := by
              unfold buildTree
              rw [if_neg (by simp), buildLayers_eq, if_neg (by simp),
                show nextLayer [la, lb] = [hashPair la lb] from rfl, buildLayers_eq]
              simp
            have hbt2 : buildTree [lb, la] = [[lb, la], [hashPair lb la]] := by
              unfold buildTree
              rw [if_neg (by simp), buildLayers_eq, if_neg (by simp),
                show nextLayer [lb, la] = [hashPair lb la] from rfl, buildLayers_eq]
              simp
            simp only [hd1, hd2, hm1, hm2, Option.map_some', Option.getD_some, hbt1, hbt2]
            rw [if_neg (by simp), if_neg (by simp)]
            simp only [rootNode, List.getLast?_cons_cons, List.getLast?_singleton,
              Option.getD_some, List.getD_cons_zero]
            rw [hashPair_comm]

theorem treeData_core_none_of_mapM_none {w : List Str}
    (h : w.mapM (fun addr => getAddress (trim addr)) = none) :
    treeData w = emptyTreeData := by
  apply treeData_of_core_none
  unfold treeDataCore
  rw [h]
  rfl

theorem treeData_core_none_of_leaves_none {w cas : List Str}
    (h1 : w.mapM (fun addr => getAddress (trim addr)) = some cas)
    (h2 : (dedup cas).mapM hashAddress = none) :
    treeData w = emptyTreeData := by
  apply treeData_of_core_none
  unfold treeDataCore
  rw [h1, Option.some_bind]
  have h2l : List.mapM.loop hashAddress (dedup cas) [] = none := h2
  simp [h2l]

theorem mapM_append_single {g : Str → Option Str} {l : List Str} {cas : List Str} {x : Str}
    {cx : Str} (h1 : l.mapM g = some cas) (h2 : g x = some cx) :
    (l ++ [x]).mapM g = some (cas ++ [cx]) := by
  have hx : ([x] : List Str).mapM g = some [cx] := by
    rw [List.mapM_cons, h2]
    rfl
  rw [List.mapM_append, h1, hx]
  simp only [Option.bind_eq_bind, Option.some_bind]
  rfl

/-- C6: duplicate addresses — including entries that differ only in
letter case, i.e. whose normalizations agree — collapse to a single
leaf: appending a copy of the first entry leaves the leaf count
unchanged, appending a normalization-equal duplicate of the last entry
leaves it unchanged, and the deduplicated list is an order-preserving
(first-occurrence) selection of the normalized entries. -/
theorem claim6_dedup_collapse :
    (∀ xs : List Str, xs ≠ [] → leafCount (xs ++ [xs.headD []]) = leafCount xs) ∧
      (∀ (xs : List Str) (s t : Str), getAddress (trim t) = getAddress (trim s) →
        leafCount (xs ++ [s, t]) = leafCount (xs ++ [s])) ∧
      ∀ l : List Str, (dedup l).Sublist l ∧ ∀ x, x ∈ dedup l ↔ x ∈ l := by
  refine ⟨?_, ?_, fun l => ⟨dedup_sublist l, fun x => dedup_mem⟩⟩
  · intro xs hxs
    unfold leafCount
    cases hmap : xs.mapM (fun addr => getAddress (trim addr)) with
    | none =>
        obtain ⟨bad, hbad, hnone⟩ := (mapM_eq_none_iff xs).mp hmap
        rw [treeData_core_none_of_mapM_none hmap,
          treeData_core_none_of_mapM_none
            ((mapM_eq_none_iff _).mpr ⟨bad, List.mem_append_left _ hbad, hnone⟩)]
    | some cas =>
        have hx0 : xs.headD [] ∈ xs := headD_mem hxs
        obtain ⟨c0, hc0⟩ := Option.isSome_iff_exists.mp (mapM_some_all_isSome hmap _ hx0)
        have hc0mem : c0 ∈ cas := by
          rw [mapM_some_eq_map hmap]
          exact List.mem_map.mpr ⟨xs.headD [], hx0, by rw [hc0]; rfl⟩
        have hmap2 : (xs ++ [xs.headD []]).mapM (fun addr => getAddress (trim addr)) =
            some (cas ++ [c0]) := mapM_append_single hmap hc0
        have hded : dedup (cas ++ [c0]) = dedup cas := dedup_append_mem hc0mem
        cases hlv : (dedup cas).mapM hashAddress with
        | none =>
            rw [treeData_core_none_of_leaves_none hmap hlv,
              treeData_core_none_of_leaves_none hmap2 (by rw [hded]; exact hlv)]
        | some leaves =>
            rw [treeData_build hxs hmap hlv,
              treeData_build (by simp) hmap2 (by rw [hded]; exact hlv)]
  · intro xs s t hst
    unfold leafCount
    cases hmap : (xs ++ [s]).mapM (fun addr => getAddress (trim addr)) with
    | none =>
        obtain ⟨bad, hbad, hnone⟩ := (mapM_eq_none_iff _).mp hmap
        have hbad2 : ∃ a ∈ xs ++ [s, t], getAddress (trim a) = none := by
          rcases List.mem_append.mp hbad with hmem | hmem
          · exact ⟨bad, List.mem_append_left _ hmem, hnone⟩
          · rw [List.mem_singleton] at hmem
            subst hmem
            exact ⟨bad, List.mem_append_right _ (List.mem_cons_self ..), hnone⟩
        rw [treeData_core_none_of_mapM_none hmap,
          treeData_core_none_of_mapM_none ((mapM_eq_none_iff _).mpr hbad2)]
    | some cas1 =>
        cases hmx : xs.mapM (fun addr => getAddress (trim addr)) with
        | none =>
            rw [List.mapM_append, hmx] at hmap
            simp at hmap
        | some cas =>
            cases hs : getAddress (trim s) with
            | none =>
                have hsnone : ([s] : List Str).mapM (fun addr => getAddress (trim addr)) =
                    none := by
                  rw [List.mapM_cons, hs]
                  rfl
                rw [List.mapM_append, hmx, hsnone] at hmap
                simp at hmap
            | some cs =>
                have hmaps : (xs ++ [s]).mapM (fun addr => getAddress (trim addr)) =
                    some (cas ++ [cs]) := mapM_append_single hmx hs
                have ht : getAddress (trim t) = some cs := hst.trans hs
                have hmap2 : (xs ++ [s, t]).mapM (fun addr => getAddress (trim addr)) =
                    some (cas ++ [cs, cs]) := by
                  have hst2 : ([s, t] : List Str).mapM (fun addr => getAddress (trim addr)) =
                      some [cs, cs] := by
                    rw [List.mapM_cons, hs, List.mapM_cons, ht]
                    rfl
                  rw [List.mapM_append, hmx, hst2]
                  simp only [Option.bind_eq_bind, Option.some_bind]
                  rfl
                have hded : dedup (cas ++ [cs, cs]) = dedup (cas ++ [cs]) := by
                  have : cas ++ [cs, cs] = (cas ++ [cs]) ++ [cs] := by simp
                  rw [this]
                  exact dedup_append_mem (List.mem_append_right _ (List.mem_cons_self ..))
                cases hlv : (dedup (cas ++ [cs])).mapM hashAddress with
                | none =>
                    rw [treeData_core_none_of_leaves_none hmaps hlv,
                      treeData_core_none_of_leaves_none hmap2 (by rw [hded]; exact hlv)]
                | some leaves =>
                    rw [treeData_build (by simp) hmaps hlv,
                      treeData_build (by simp) hmap2 (by rw [hded]; exact hlv)]

set_option maxRecDepth 1000000 in
set_option maxHeartbeats 1000000 in
/-- C6 witness: appending a copy of the only entry keeps one leaf, and a
lowercase duplicate of a checksummed address collapses with it. -/
theorem claim6_witness :
    leafCount ([addr1] ++ [[addr1].headD []]) = leafCount [addr1] ∧
      leafCount ([] ++ [jstr "0xfB6916095ca1df60bB79Ce92cE3Ea74c37c5d359",
          jstr "0xfb6916095ca1df60bb79ce92ce3ea74c37c5d359"]) =
        leafCount ([] ++ [jstr "0xfB6916095ca1df60bB79Ce92cE3Ea74c37c5d359"]) :=
  ⟨claim6_dedup_collapse.1 [addr1] (by decide),
   claim6_dedup_collapse.2.1 [] (jstr "0xfB6916095ca1df60bB79Ce92cE3Ea74c37c5d359")
     (jstr "0xfb6916095ca1df60bb79ce92ce3ea74c37c5d359") (by decide)⟩

/-- C1: for every non-empty list of valid addresses and every address
in that list, the proof issued by the engine verifies: folding the
emitted siblings leaf-to-root with the sorted-pair hash recomputes
exactly the stored root. -/
theorem claim1_member_proof_verifies (w : List Str) (hw : w ≠ [])
    (hval : ∀ a ∈ w, (getAddress a).isSome) (a : Str) (ha : a ∈ w) :
    verifyProof w (getProofForAddress w a) a = true := by
  have htrimmap : w.mapM (fun addr => getAddress (trim addr)) = w.mapM getAddress :=
    mapM_congr w (fun x hx => by rw [trim_of_valid (hval x hx)])
  have hmap : w.mapM (fun addr => getAddress (trim addr)) =
      some (w.map (fun x => (getAddress x).getD default)) := by
    rw [htrimmap]
    exact mapM_eq_map_of_isSome w hval
  have houts : ∀ c ∈ w.map (fun x => (getAddress x).getD default), ∃ s, getAddress s = some c :=
    cas_outputs hmap
  have houtsns : ∀ c ∈ dedup (w.map (fun x => (getAddress x).getD default)),
      ∃ s, getAddress s = some c := fun c hc => houts c (dedup_mem.mp hc)
  have hlv := leaves_mapM_some houtsns
  have htd := treeData_build hw hmap hlv
  obtain ⟨ca, hca⟩ := Option.isSome_iff_exists.mp (hval a ha)
  have hcamem : ca ∈ w.map (fun x => (getAddress x).getD default) :=
    List.mem_map.mpr ⟨a, ha, by rw [hca]; rfl⟩
  have hcans : ca ∈ dedup (w.map (fun x => (getAddress x).getD default)) := dedup_mem.mpr hcamem
  obtain ⟨i, hi⟩ := Option.isSome_iff_exists.mp (mapGet_mkIndex_isSome hcans)
  obtain ⟨hilt, hkey⟩ := mapGet_mkIndex_some hi
  obtain ⟨s2, hs2⟩ := houtsns _ (getD_mem [] hilt)
  have hcb : (dedup (w.map (fun x => (getAddress x).getD default))).getD i [] = ca :=
    getAddress_out_eq hs2 hca hkey
  have hhashca : hashAddress ca = some (keccak256 (hexPairsToBytes (ca.drop 2))) :=
    hashAddress_of_out hca
  have hleafval :
      ((dedup (w.map (fun x => (getAddress x).getD default))).map
        (fun c => (hashAddress c).getD default)).getD i [] =
        keccak256 (hexPairsToBytes (ca.drop 2)) := by
    rw [getD_map_of_lt _ _ i [] [] hilt, hcb, hhashca]
    rfl
  have hlv_ne : (dedup (w.map (fun x => (getAddress x).getD default))).map
      (fun c => (hashAddress c).getD default) ≠ [] := by
    intro h0
    rw [List.map_eq_nil_iff] at h0
    rw [h0] at hcans
    simp at hcans
  have hbt : buildTree ((dedup (w.map (fun x => (getAddress x).getD default))).map
      (fun c => (hashAddress c).getD default)) =
      buildLayers ((dedup (w.map (fun x => (getAddress x).getD default))).map
        (fun c => (hashAddress c).getD default)) := by
    unfold buildTree
    rw [if_neg hlv_ne]
  have hwleaves : ∀ x ∈ (dedup (w.map (fun x => (getAddress x).getD default))).map
      (fun c => (hashAddress c).getD default), wfBytes x := by
    intro x hx
    obtain ⟨c, hc, rfl⟩ := List.mem_map.mp hx
    obtain ⟨s3, hs3⟩ := houtsns c hc
    rw [hashAddress_of_out hs3]
    exact wfBytes_keccak256 _
  have hwlayers := buildLayers_wf _ _ rfl hwleaves
  have hwnodes := getProofNodes_wf (buildLayers _) i hwlayers
  have hproof : getProofForAddress w a =
      getProof (buildTree ((dedup (w.map (fun x => (getAddress x).getD default))).map
        (fun c => (hashAddress c).getD default))) i := by
    simp only [getProofForAddress, hca, htd, hi]
  have hhash_a : hashAddress a = some (keccak256 (hexPairsToBytes (ca.drop 2))) := by
    simp [hashAddress, hca]
  have hlen : i < ((dedup (w.map (fun x => (getAddress x).getD default))).map
      (fun c => (hashAddress c).getD default)).length := by
    simpa using hilt
  simp only [verifyProof, hhash_a, hproof, hbt, getProof_eq_map_hex]
  rw [foldl_verify_map _ _ hwnodes]
  have hstart : keccak256 (hexPairsToBytes (ca.drop 2)) =
      ((dedup (w.map (fun x => (getAddress x).getD default))).map
        (fun c => (hashAddress c).getD default)).getD i [] := hleafval.symm
  rw [hstart, foldl_getProofNodes _ _ rfl i hlen]
  simp only [htd]
  rw [hbt, if_neg (buildLayers_ne_nil _)]
  simp

set_option maxRecDepth 1000000 in
set_option maxHeartbeats 2000000 in
/-- C1 witness: in a concrete three-address whitelist the proof issued
for the second address verifies against the stored root. -/
theorem claim1_witness :
    ([addr1, addr2, addr3] : List Str) ≠ [] ∧
      (∀ a ∈ ([addr1, addr2, addr3] : List Str), (getAddress a).isSome) ∧
      verifyProof [addr1, addr2, addr3]
        (getProofForAddress [addr1, addr2, addr3] addr2) addr2 = true :=
  ⟨by decide, by decide,
   claim1_member_proof_verifies [addr1, addr2, addr3] (by decide) (by decide) addr2
     (by decide)⟩

theorem map_self_of {α : Type} {f : α → α} {l : List α} (h : ∀ x ∈ l, f x = x) :
    l.map f = l := by
  induction l with
  | nil => rfl
  | cons a t ih =>
      rw [List.map_cons, h a (List.mem_cons_self ..),
        ih (fun x hx => h x (List.mem_cons_of_mem _ hx))]

/-- C9: exporting a whitelist and reloading the exported address list
from its newline-joined text form yields a tree with the identical
root. -/
theorem claim9_export_reload_roundtrip (w : List Str) :
    (treeData ((loadWhitelistFromText (joinNL ((exportAsJSON w).addresses))).2)).root =
      (exportAsJSON w).root := by
  by_cases hw : w = []
  · subst hw
    rfl
  · rcases treeDataCore_cases w with hcore | ⟨cas, leaves, hmap, hlv⟩
    · have htd : treeData w = emptyTreeData := treeData_of_core_none hcore
      have hexp : (exportAsJSON w).addresses = [] := by
        simp [exportAsJSON, htd, emptyTreeData]
      have hroot : (exportAsJSON w).root = ZeroHash := by
        simp [exportAsJSON, htd, emptyTreeData]
      rw [hexp, hroot]
      rfl
    · have htd := treeData_build hw hmap hlv
      have hexp : (exportAsJSON w).addresses = dedup cas := by
        simp [exportAsJSON, htd]
      have hroot : (exportAsJSON w).root =
          (if buildTree leaves = [] then ZeroHash
            else hex0x (rootNode (buildTree leaves))) := by
        simp [exportAsJSON, htd]
      have houtsns : ∀ c ∈ dedup cas, ∃ s, getAddress s = some c :=
        fun c hc => cas_outputs hmap c (dedup_mem.mp hc)
      have hshape : ∀ x ∈ dedup cas, ∃ h40 : Str, (∀ c ∈ h40, isHexN c = true) ∧
          x = 48 :: 120 :: checksumChars (lowerStr h40) := by
        intro x hx
        obtain ⟨s, hs⟩ := houtsns x hx
        obtain ⟨h40, _, hhex, _, hr⟩ := getAddress_some_shape hs
        exact ⟨h40, hhex, hr⟩
      have hchars : ∀ x ∈ dedup cas, ∀ c ∈ x, ¬(c = 10 ∨ c = 44) := by
        intro x hx c hc
        obtain ⟨h40, hhex, rfl⟩ := hshape x hx
        have hlow : ∀ d ∈ lowerStr h40, isLowerHexN d = true := by
          intro d hd
          obtain ⟨e, he, rfl⟩ := List.mem_map.mp hd
          exact toLowerN_hex (hhex e he)
        simp only [List.mem_cons] at hc
        rcases hc with rfl | rfl | hc
        · decide
        · decide
        · have h2 := isHexN_not_sep (checksumChars_mem hlow c hc)
          tauto
      have hns_ne : dedup cas ≠ [] := by
        apply dedup_ne_nil
        intro hnil
        have := mapM_some_length hmap
        rw [hnil] at this
        rcases w with _ | _
        · exact hw rfl
        · simp at this
      have hsplit : splitSeps (joinNL (dedup cas)) = dedup cas :=
        splitSeps_joinNL hns_ne hchars
      have hvalid : ∀ x ∈ dedup cas, getAddress x = some x := by
        intro x hx
        obtain ⟨s, hs⟩ := houtsns x hx
        exact getAddress_idem hs
      have htrimx : ∀ x ∈ dedup cas, trim x = x := by
        intro x hx
        apply trim_of_valid
        rw [hvalid x hx]
        rfl
      have hmaptrim : (dedup cas).map trim = dedup cas := map_self_of htrimx
      have hne_elem : ∀ x ∈ dedup cas, x ≠ [] := by
        intro x hx
        obtain ⟨h40, _, rfl⟩ := hshape x hx
        simp
      have hf1 : (dedup cas).filter (fun addr => decide (addr ≠ [])) = dedup cas :=
        List.filter_eq_self.mpr (fun x hx => by simpa using hne_elem x hx)
      have hf2 : (dedup cas).filter (fun addr => (getAddress (trim addr)).isSome) = dedup cas :=
        List.filter_eq_self.mpr (fun x hx => by rw [htrimx x hx, hvalid x hx]; rfl)
      have hload : (loadWhitelistFromText (joinNL (dedup cas))).2 = dedup cas := by
        unfold loadWhitelistFromText loadWhitelist
        rw [hsplit, hmaptrim, hf1, hf2]
      rw [hexp, hroot, hload]
      have hmap2 : (dedup cas).mapM (fun addr => getAddress (trim addr)) =
          some (dedup cas) := by
        rw [mapM_congr _ (fun x hx => by rw [htrimx x hx])]
        rw [mapM_eq_map_of_isSome _ (fun x hx => by rw [hvalid x hx]; rfl)]
        rw [map_self_of (fun x hx => by rw [hvalid x hx]; rfl)]
      have hlv2 : (dedup (dedup cas)).mapM hashAddress = some leaves := by
        rw [dedup_idem]
        exact hlv
      rw [treeData_build hns_ne hmap2 hlv2]

end ArcMerkle
